import Mathlib

/-!
Shallow embedding of the rank-based election simulation in Script/utils.py.

Modelling conventions:
* A pandas DataFrame of preference rows is a `List Row`; column values are
  rationals (`ℚ`).  A float `NaN` (which pandas produces for a missing
  addend after a left merge, and for missing columns after an outer merge)
  is modelled as `none` in `Option ℚ`; arithmetic on `none` propagates it,
  exactly as `NaN + x = NaN`.
* `groupby` on best_party sorts its keys ascending (pandas sorts group keys by default); we model it by sorting the deduplicated key list.
  `max`/`mean`/`sum` aggregations skip `NaN` values (pandas `skipna=True`).
* a descending `sort_values` is modelled as a stable descending
  insertion sort; `NaN` keys sort last (pandas puts NaN last),
  which we obtain by mapping `none` to `⊥` in `WithBot ℚ`.
* A raised `IndexError` (`.iloc[0]` / `.iloc[-1]` on an empty frame) and a
  raised `KeyError` (dict lookup miss) are modelled as error results
  (`Except` / `Option`).
* The unbounded Python `while` loop is modelled with an explicit fuel
  argument; `(current_results data).length` fuel is provably sufficient
  because the loop guard requires `loop_count < (current_results data).length`
  and the number of distinct parties is preserved by each round
  (`simLoopFuel_fuel_irrel` below makes the sufficiency precise).
-/

namespace RankBased

/-- One row of the preference table: a (best_party, next_best_party) pair
with its redistribution share, the live vote count, the immutable initial
vote count, and the accumulated redistributed votes (`none` models NaN). -/
structure Row where
  best_party : String
  next_best_party : String
  redistribution_share : ℚ
  current_votes : ℚ
  initial_votes : ℚ
  redistributed_votes : Option ℚ
  deriving DecidableEq, Repr

/-- A preference table is a list of rows (a pandas DataFrame). -/
abbrev Table := List Row

/-- Maximum of a list of rationals, `none` on the empty list
(pandas `max` of a group; groups are never empty). -/
def listMaxQ : List ℚ → Option ℚ
  | [] => none
  | x :: xs =>
    some (match listMaxQ xs with
      | none => x
      | some m => max x m)

/-- Maximum of a list of NaN-able rationals, skipping NaN entries;
`none` when every entry is NaN (pandas max skips NaN). -/
def nanMax : List (Option ℚ) → Option ℚ
  | [] => none
  | none :: xs => nanMax xs
  | some q :: xs =>
    some (match nanMax xs with
      | none => q
      | some m => max q m)

/-- Arithmetic mean of a list of rationals (pandas `mean` of a group). -/
def listMeanQ (l : List ℚ) : ℚ := l.sum / l.length

/-- Mean of a list of NaN-able rationals, skipping NaN entries;
`none` when every entry is NaN (pandas mean skips NaN). -/
def nanMean (l : List (Option ℚ)) : Option ℚ :=
  let s := l.filterMap id
  if s = [] then none else some (s.sum / s.length)

/-- NaN-propagating addition: `NaN + x = x + NaN = NaN`. -/
def nadd : Option ℚ → Option ℚ → Option ℚ
  | some a, some b => some (a + b)
  | _, _ => none

/-- Embed a NaN-able rational into `WithBot ℚ`, sending NaN to `⊥`:
used to model pandas descending sorts, which place NaN last. -/
def nv : Option ℚ → WithBot ℚ
  | none => ⊥
  | some q => (q : WithBot ℚ)

/-- Code-point lexicographic comparison of character lists, written as a
structurally recursive Boolean function so that it evaluates inside the
kernel. -/
def strLeb : List Char → List Char → Bool
  | [], _ => true
  | _ :: _, [] => false
  | a :: as, b :: bs =>
    if a.toNat < b.toNat then true
    else if b.toNat < a.toNat then false
    else strLeb as bs

/-- Lexicographic order on strings by code points: the order pandas uses on
string group keys. -/
def strLe (a b : String) : Prop := strLeb a.data b.data = true

instance : DecidableRel strLe :=
  fun a b => inferInstanceAs (Decidable (strLeb a.data b.data = true))

/-- The distinct `best_party` values of the table, sorted ascending:
the key column of `groupby` on best_party (pandas sorts group keys). -/
def partiesOf (data : Table) : List String :=
  List.insertionSort strLe ((data.map Row.best_party).dedup)

/-- One row of the `current_results` projection. -/
structure CREntry where
  best_party : String
  current_votes : ℚ
  redistributed_votes : Option ℚ
  deriving DecidableEq, Repr

/-- The rows of the table belonging to one party
(`data[data.best_party == p]`). -/
def rowsFor (data : Table) (p : String) : Table :=
  data.filter (fun r => decide (r.best_party = p))

/-- The collapsed standings row of one party: `groupby-max on best_party`
applied to the `current_votes` and `redistributed_votes` columns. -/
def mkEntry (data : Table) (p : String) : CREntry :=
  { best_party := p
    current_votes := (listMaxQ ((rowsFor data p).map Row.current_votes)).getD 0
    redistributed_votes := nanMax ((rowsFor data p).map Row.redistributed_votes) }

/-- Descending order on standings rows by `current_votes`
(sort_values on current_votes, descending). -/
def crDesc : CREntry → CREntry → Prop := fun a b => b.current_votes ≤ a.current_votes

instance : DecidableRel crDesc :=
  fun a b => inferInstanceAs (Decidable (b.current_votes ≤ a.current_votes))

/-- Python `current_results(data)` (utils.py lines 67-77): collapse to one
row per distinct `best_party` by group-max and sort descending by
`current_votes`. -/
def current_results (data : Table) : List CREntry :=
  List.insertionSort crDesc ((partiesOf data).map (mkEntry data))

/-- Python `bottom_party_name(data)` (utils.py lines 83-89): drop the rows
of `current_results` with zero `current_votes`, take the last remaining
row's party.  `none` models the `IndexError` of `.iloc[-1]` on an empty
frame. -/
def bottom_party_name (data : Table) : Option String :=
  (((current_results data).filter (fun e => decide (e.current_votes ≠ 0))).getLast?).map
    CREntry.best_party

/-- The totaled share column built by the `assign` in
`top_party_votes_share`: `current_votes + redistributed_votes`
(NaN-propagating). -/
def totalVotes (e : CREntry) : Option ℚ :=
  e.redistributed_votes.map (fun v => e.current_votes + v)

/-- Descending order on NaN-able totals, NaN last. -/
def totDesc : Option ℚ → Option ℚ → Prop := fun a b => nv b ≤ nv a

instance : DecidableRel totDesc :=
  fun a b => inferInstanceAs (Decidable (nv b ≤ nv a))

/-- Python `top_party_votes_share(data)` (utils.py lines 95-102): take
`current_results`, overwrite `current_votes` with
`current_votes + redistributed_votes`, re-sort descending by that totaled
column, and return `.iloc[0]`.  The outer `none` models the `IndexError`
of `.iloc[0]` on an empty frame; the inner `none` models a NaN value. -/
def top_party_votes_share (data : Table) : Option (Option ℚ) :=
  (List.insertionSort totDesc ((current_results data).map totalVotes)).head?

/-- The Python comparison `x < 50` where `x` may be NaN
(`NaN < 50` is `False`). -/
def ltFifty : Option ℚ → Bool
  | none => false
  | some q => decide (q < 50)

/-- Errors surfaced by the simulation, naming the spec's taxonomy for the
two `IndexError` sites of the code: `.iloc[0]` in `top_party_votes_share`
on an empty table, and `.iloc[-1]` in `bottom_party_name` when no party
has nonzero votes. -/
inductive SimError where
  | emptyDataset
  | noEligibleParty
  deriving DecidableEq, Repr

/-- The `points_to_redistribute` frame of `redistribute_bottom_points`
(utils.py lines 120-125): one `(destination_party, transfer)` pair per row
of the bottom party, with `transfer = initial_votes * redistribution_share`;
the `next_best_party` column is renamed to `best_party` (here: the first
component). -/
def points_to_redistribute (data : Table) (bottom : String) : List (String × ℚ) :=
  (rowsFor data bottom).map (fun r => (r.next_best_party, r.initial_votes * r.redistribution_share))

/-- The effect on one row of the left merge with points_to_redistribute
followed by adding points_to_redistribute onto redistributed_votes
(utils.py lines 128-133): a row matching k transfer rows becomes k rows,
each with one addend added; a row matching none keeps a missing addend, so
its new `redistributed_votes` is `NaN + ... = NaN` (`none`). -/
def addPoints (pts : List (String × ℚ)) (r : Row) : List Row :=
  match pts.filter (fun q => decide (q.1 = r.best_party)) with
  | [] => [{ r with redistributed_votes := none }]
  | ms => ms.map (fun q => { r with redistributed_votes := r.redistributed_votes.map (fun v => v + q.2) })

/-- The final statement of `redistribute_bottom_points`:
setting current_votes to 0 on every row whose best_party is the bottom party. -/
def zeroBottom (bottom : String) (r : Row) : Row :=
  if r.best_party = bottom then { r with current_votes := 0 } else r

/-- Python `redistribute_bottom_points(data)` (utils.py lines 108-138):
find the bottom party, build its transfer pairs, left-merge them onto the
table adding to `redistributed_votes`, and zero the bottom party's
`current_votes`. -/
def redistribute_bottom_points (data : Table) : Except SimError Table :=
  match bottom_party_name data with
  | none => .error .noEligibleParty
  | some bottom =>
    let pts := points_to_redistribute data bottom
    .ok ((data.flatMap (addPoints pts)).map (zeroBottom bottom))

/-- The `while` loop of `simulateRankBasedElection` (utils.py lines
158-161), with an explicit fuel bound on the recursion depth:
`while top_party_votes_share(data) < 50 and loop_count < len(current_results(data)):
   data = redistribute_bottom_points(data); loop_count += 1`.
The fuel is semantically inert: the guard `loop_count < len(current_results
data)` together with preservation of the party count lets any fuel
`≥ len - loop_count` compute the loop's true result
(`simLoopFuel_fuel_irrel`). -/
def simLoopFuel : ℕ → Table → ℕ → Except SimError (Table × ℕ)
  | 0, data, loop_count =>
    match top_party_votes_share data with
    | none => .error .emptyDataset
    | some _ => .ok (data, loop_count)
  | fuel + 1, data, loop_count =>
    match top_party_votes_share data with
    | none => .error .emptyDataset
    | some t =>
      if ltFifty t = true ∧ loop_count < (current_results data).length then
        match redistribute_bottom_points data with
        | .error e => .error e
        | .ok data' => simLoopFuel fuel data' (loop_count + 1)
      else .ok (data, loop_count)

/-- The two sentinel `next_best_party` values marking voters with no usable
secondary preference (utils.py line 149). -/
def isDiehardTarget (s : String) : Bool :=
  decide (s = "inget parti") || decide (s = "vet ej/uppgift saknas")

/-- The `diehard_votes` frame of `simulateRankBasedElection` (utils.py
lines 147-155): per party, the sum of `initial_votes * redistribution_share`
over its sentinel-preference rows; only parties having such rows appear. -/
def diehard_votes (data : Table) : List (String × ℚ) :=
  let dh := data.filter (fun r => isDiehardTarget r.next_best_party)
  (partiesOf dh).map (fun p =>
    (p, ((rowsFor dh p).map (fun r => r.initial_votes * r.redistribution_share)).sum))

/-- One row of the final tally; every numeric column is NaN-able because of
the outer merge (a diehard-only party has no collapsed columns, a party
with no diehard rows has a NaN `diehard_votes`). -/
structure TallyRow where
  best_party : String
  current_votes : Option ℚ
  redistributed_votes : Option ℚ
  initial_votes : Option ℚ
  diehard_votes : Option ℚ
  deriving DecidableEq, Repr

/-- One collapsed row of the finalization groupby-aggregate on best_party
(means of `current_votes`, `redistributed_votes`, `initial_votes`), already
carrying its `diehard_votes` value from the outer merge (`none` when the
party has no diehard entry). -/
def collapseRow (data : Table) (dh : List (String × ℚ)) (p : String) : TallyRow :=
  { best_party := p
    current_votes := some (listMeanQ ((rowsFor data p).map Row.current_votes))
    redistributed_votes := nanMean ((rowsFor data p).map Row.redistributed_votes)
    initial_votes := some (listMeanQ ((rowsFor data p).map Row.initial_votes))
    diehard_votes := (dh.find? (fun q => decide (q.1 = p))).map Prod.snd }

/-- The finalization of `simulateRankBasedElection` (utils.py lines
164-174): collapse the table to one row per party (means), outer-merge with
the diehard frame (diehard-only parties gain a row whose collapsed columns
are NaN), replace `current_votes` by `diehard_votes` on rows with
rows whose current_votes equals 0 (a NaN current_votes compares unequal to 0), then
set `current_votes := current_votes + redistributed_votes`. -/
def finalize (data : Table) (dh : List (String × ℚ)) : List TallyRow :=
  let leftRows := (partiesOf data).map (collapseRow data dh)
  let rightOnly := (dh.filter (fun q => decide (q.1 ∉ partiesOf data))).map (fun q =>
    { best_party := q.1, current_votes := none, redistributed_votes := none,
      initial_votes := none, diehard_votes := some q.2 : TallyRow })
  ((leftRows ++ rightOnly).map (fun t =>
      if t.current_votes = some 0 then { t with current_votes := t.diehard_votes } else t)).map
    (fun t => { t with current_votes := nadd t.current_votes t.redistributed_votes })

/-- Python `simulateRankBasedElection(data)` (utils.py lines 144-176):
compute the diehard frame, run the elimination loop starting at
`loop_count = 1`, and finalize. -/
def simulateRankBasedElection (data : Table) : Except SimError (List TallyRow) :=
  match simLoopFuel (current_results data).length data 1 with
  | .error e => .error e
  | .ok (data', _) => .ok (finalize data' (diehard_votes data))

/-- The literal party-to-bloc dictionary of `bloc` (utils.py lines 182-193). -/
def bloc_table : List (String × String) :=
  [("V", "Socialdemokratin"), ("SD", "SD"), ("M", "Alliansen"), ("C", "Alliansen"),
   ("L", "Alliansen"), ("KD", "Alliansen"), ("S", "Socialdemokratin"),
   ("MP", "Socialdemokratin"), ("övriga", "övriga")]

/-- Python `bloc(party)` (utils.py lines 182-193): dictionary lookup;
`none` models the `KeyError` raised on a code outside the dictionary. -/
def bloc (party : String) : Option String :=
  (bloc_table.find? (fun q => decide (q.1 = party))).map Prod.snd

/-- Number of completed redistribution rounds of a run of the code's loop
(`loop_count` starts at 1, so rounds = final `loop_count` - 1); `none` when
the run aborts with an exception. -/
def codeLoopRounds (data : Table) : Option ℕ :=
  match simLoopFuel (current_results data).length data 1 with
  | .ok (_, k) => some (k - 1)
  | .error _ => none

/-- Final `current_votes` tally entry of one party, as produced by
`simulateRankBasedElection`; outer `none` when the simulation aborts or the
party has no tally row, inner `none` when its tally value is NaN. -/
def finalVotes (data : Table) (p : String) : Option (Option ℚ) :=
  match simulateRankBasedElection data with
  | .ok t => (t.find? (fun e => decide (e.best_party = p))).map TallyRow.current_votes
  | .error _ => none

end RankBased

namespace RankBased

/-! ## Spec-side definitions

These definitions follow the words of the specification (not the code) and
exist to be compared with the code-derived definitions above. -/

/-- Modelled from the spec, for comparison with `top_party_votes_share`:
the totaled share of the party ranked first by `current_votes` alone, i.e.
the total of the head of `current_results` (which is sorted descending by
the raw, pre-totaling `current_votes`). -/
def leading_share_ranked_by_current (data : Table) : Option (Option ℚ) :=
  ((current_results data).head?).map totalVotes

/-- Modelled from the spec, for comparison with the loop guard of the code:
the number of distinct parties with nonzero `current_votes` in the current
table. -/
def nonzeroPartyCount (data : Table) : ℕ :=
  ((current_results data).filter (fun e => decide (e.current_votes ≠ 0))).length

/-- Modelled from the spec, for comparison with `simLoopFuel`: the state
machine of spec section 4.3 — round_count starts at 0 and one round is
applied while the leading share is below 50 AND round_count is below the
number of distinct parties with nonzero votes in the current table. -/
def specLoopClaim : ℕ → Table → ℕ → Except SimError (Table × ℕ)
  | 0, data, round_count =>
    match top_party_votes_share data with
    | none => .error .emptyDataset
    | some _ => .ok (data, round_count)
  | fuel + 1, data, round_count =>
    match top_party_votes_share data with
    | none => .error .emptyDataset
    | some t =>
      if ltFifty t = true ∧ round_count < nonzeroPartyCount data then
        match redistribute_bottom_points data with
        | .error e => .error e
        | .ok data' => specLoopClaim fuel data' (round_count + 1)
      else .ok (data, round_count)

/-- Number of rounds executed by the machine the spec describes, run with
the same (sufficient) fuel as the code loop; `none` on an aborting run. -/
def specClaimRounds (data : Table) : Option ℕ :=
  match specLoopClaim (current_results data).length data 0 with
  | .ok (_, k) => some k
  | .error _ => none

/-- The corrected abstract machine that the code actually implements:
round_count starts at 0 and one round is applied while the leading share
is below 50 AND round_count is below (number of distinct best_party values
in the current table, zeroed parties included) minus one. -/
def specLoopCorrected : ℕ → Table → ℕ → Except SimError (Table × ℕ)
  | 0, data, round_count =>
    match top_party_votes_share data with
    | none => .error .emptyDataset
    | some _ => .ok (data, round_count)
  | fuel + 1, data, round_count =>
    match top_party_votes_share data with
    | none => .error .emptyDataset
    | some t =>
      if ltFifty t = true ∧ round_count < (current_results data).length - 1 then
        match redistribute_bottom_points data with
        | .error e => .error e
        | .ok data' => specLoopCorrected fuel data' (round_count + 1)
      else .ok (data, round_count)

/-- Modelled from the spec, claim C4: the sum of
`current_votes + redistributed_votes` across all parties (one addend per
distinct party, as in `current_results`), valued in `WithBot ℚ` so that a
NaN addend poisons the whole sum exactly as a float NaN would. -/
def total_votes_sum (data : Table) : WithBot ℚ :=
  ((current_results data).map
    (fun e => (e.current_votes : WithBot ℚ) + nv e.redistributed_votes)).sum

/-- The transfer amount a party receives from the pending transfer pairs:
the sum of the amounts of the pairs naming it (zero when none does, the
unique amount when the destinations are distinct). -/
def transferTo (pts : List (String × ℚ)) (p : String) : ℚ :=
  ((pts.filter (fun q => decide (q.1 = p))).map Prod.snd).sum

/-! ## Concrete input tables used by counterexamples and witnesses -/

/-- Row constructor shorthand (column order as in `Row`). -/
def mkRow (bp nbp : String) (sh cv iv : ℚ) (rv : Option ℚ) : Row :=
  ⟨bp, nbp, sh, cv, iv, rv⟩

/-- Scenario A of the spec: X has 50 votes, all diehard; Y has 30 votes
redistributing 100 percent to Z; Z has 20 votes redistributing 100 percent
to X. -/
def tblA : Table :=
  [mkRow "X" "inget parti" 1 50 50 (some 0),
   mkRow "Y" "Z" 1 30 30 (some 0),
   mkRow "Z" "X" 1 20 20 (some 0)]

/-- Two parties where the leader by raw current_votes (A, 10 votes) differs
from the leader by totaled votes (B, 5 + 20 = 25). -/
def c1tbl : Table :=
  [mkRow "A" "q" 0 10 10 (some 0),
   mkRow "B" "q" 0 5 5 (some 20)]

/-- Three parties; the bottom party C transfers everything to A, so B
matches no destination of the eliminated party. -/
def c2tbl : Table :=
  [mkRow "A" "B" 0 50 50 (some 0),
   mkRow "B" "A" 0 30 30 (some 0),
   mkRow "C" "A" 1 20 20 (some 0)]

/-- The table `c2tbl` after one redistribution round: A received 20
transferred votes, B (which matched no destination) has a NaN
redistributed_votes, C is zeroed and also NaN. -/
def c2after : Table :=
  [mkRow "A" "B" 0 50 50 (some 20),
   mkRow "B" "A" 0 30 30 none,
   mkRow "C" "A" 1 0 20 none]

/-- Two parties: A (40 votes) is fully diehard, B (30 votes) redistributes
100 percent to A.  B is eliminated in round 1 and has no diehard rows. -/
def w10tbl : Table :=
  [mkRow "A" "inget parti" 1 40 40 (some 0),
   mkRow "B" "A" 1 30 30 (some 0)]

/-- The table `w10tbl` after its single redistribution round. -/
def w10after : Table :=
  [mkRow "A" "inget parti" 1 40 40 (some 30),
   mkRow "B" "A" 1 0 30 none]

/-- Four rows of one party with zero redistribution shares towards each of
the parties A, B, C, D (so every elimination matches every row and no NaN
appears, but no votes actually move). -/
def mk4 (p : String) (v : ℚ) : Table :=
  [mkRow p "A" 0 v v (some 0), mkRow p "B" 0 v v (some 0),
   mkRow p "C" 0 v v (some 0), mkRow p "D" 0 v v (some 0)]

/-- Four parties at 40, 30, 20 and 5 votes, nobody ever reaching 50: the
code loop eliminates three of them, the machine the spec describes stops
after two rounds. -/
def tbl4 : Table := mk4 "A" 40 ++ mk4 "B" 30 ++ mk4 "C" 20 ++ mk4 "D" 5

/-- Two parties where the eliminated bottom party B names every party
(itself included) as a destination with shares summing to one: the
conservation hypotheses of the amended claim C4 hold. -/
def w4tbl : Table :=
  [mkRow "A" "B" 0 60 60 (some 0),
   mkRow "B" "A" (1/2) 40 40 (some 5),
   mkRow "B" "B" (1/2) 40 40 (some 5)]

/-- Table with party A at 40 votes and party B already eliminated
(current_votes 0). -/
def c7tbl : Table :=
  [mkRow "A" "x" 0 40 40 (some 0),
   mkRow "B" "x" 0 0 30 (some 0)]

end RankBased
namespace RankBased

/-! ## Order facts for the string sort -/

theorem char_toNat_inj {a b : Char} (h : a.toNat = b.toNat) : a = b := by
  cases a with | mk va ha => cases b with | mk vb hb =>
  simp only [Char.toNat] at h
  congr 1
  exact UInt32.toNat.inj h

theorem strLeb_total : ∀ as bs : List Char, strLeb as bs = true ∨ strLeb bs as = true
  | [], _ => Or.inl rfl
  | _ :: _, [] => Or.inr rfl
  | a :: as, b :: bs => by
    by_cases h1 : a.toNat < b.toNat
    · left; simp [strLeb, h1]
    · by_cases h2 : b.toNat < a.toNat
      · right; simp [strLeb, h1, h2]
      · rcases strLeb_total as bs with h | h
        · left; simp [strLeb, h1, h2, h]
        · right; simp [strLeb, h1, h2, h]

theorem strLeb_trans : ∀ as bs cs : List Char,
    strLeb as bs = true → strLeb bs cs = true → strLeb as cs = true
  | [], _, _, _, _ => rfl
  | _ :: _, [], _, h, _ => by simp [strLeb] at h
  | _ :: _, _ :: _, [], _, h => by simp [strLeb] at h
  | a :: as, b :: bs, c :: cs, h1, h2 => by
    simp only [strLeb] at h1 h2 ⊢
    have hab : a.toNat ≤ b.toNat := by
      by_contra hcon
      have hba : b.toNat < a.toNat := by omega
      have hab' : ¬ a.toNat < b.toNat := by omega
      simp [hab', hba] at h1
    have hbc : b.toNat ≤ c.toNat := by
      by_contra hcon
      have hcb : c.toNat < b.toNat := by omega
      have hbc' : ¬ b.toNat < c.toNat := by omega
      simp [hbc', hcb] at h2
    by_cases hac : a.toNat < c.toNat
    · simp [hac]
    · have hab' : a.toNat = b.toNat := by omega
      have hbc' : b.toNat = c.toNat := by omega
      have h1' : strLeb as bs = true := by
        simpa [Nat.lt_irrefl, hab'] using h1
      have h2' : strLeb bs cs = true := by
        simpa [Nat.lt_irrefl, hbc'] using h2
      have hca : ¬ c.toNat < a.toNat := by omega
      simp only [hac, hca, if_false, ite_false]
      exact strLeb_trans as bs cs h1' h2'

theorem strLeb_antisymm : ∀ as bs : List Char,
    strLeb as bs = true → strLeb bs as = true → as = bs
  | [], [], _, _ => rfl
  | [], _ :: _, _, h => by simp [strLeb] at h
  | _ :: _, [], h, _ => by simp [strLeb] at h
  | a :: as, b :: bs, h1, h2 => by
    by_cases hab : a.toNat < b.toNat
    · have hba : ¬ b.toNat < a.toNat := by omega
      simp [strLeb, hab, hba] at h2
    · by_cases hba : b.toNat < a.toNat
      · simp [strLeb, hab, hba] at h1
      · simp only [strLeb, hab, hba, ite_false] at h1 h2
        have hc : a = b := char_toNat_inj (by omega)
        rw [hc, strLeb_antisymm as bs h1 h2]

theorem string_data_inj {a b : String} (h : a.data = b.data) : a = b := by
  cases a; cases b; exact congrArg String.mk h

instance : IsTotal String strLe := ⟨fun a b => strLeb_total a.data b.data⟩

instance : IsTrans String strLe := ⟨fun a b c => strLeb_trans a.data b.data c.data⟩

instance : IsAntisymm String strLe :=
  ⟨fun a b h1 h2 => string_data_inj (strLeb_antisymm a.data b.data h1 h2)⟩

/-! ## Structure of the party list and the standings -/

theorem partiesOf_sorted (data : Table) : (partiesOf data).Sorted strLe :=
  List.sorted_insertionSort strLe _

theorem partiesOf_nodup (data : Table) : (partiesOf data).Nodup :=
  ((List.perm_insertionSort strLe _).nodup_iff).2 (List.nodup_dedup _)

theorem mem_partiesOf {data : Table} {p : String} :
    p ∈ partiesOf data ↔ ∃ r ∈ data, r.best_party = p := by
  simp [partiesOf]

theorem partiesOf_eq_of_mem_iff {d₁ d₂ : Table}
    (h : ∀ s, (∃ r ∈ d₁, r.best_party = s) ↔ ∃ r ∈ d₂, r.best_party = s) :
    partiesOf d₁ = partiesOf d₂ :=
  List.eq_of_perm_of_sorted
    ((List.perm_ext_iff_of_nodup (partiesOf_nodup d₁) (partiesOf_nodup d₂)).2
      (fun s => by rw [mem_partiesOf, mem_partiesOf]; exact h s))
    (partiesOf_sorted d₁) (partiesOf_sorted d₂)

theorem length_current_results (data : Table) :
    (current_results data).length = (partiesOf data).length := by
  unfold current_results
  rw [List.length_insertionSort, List.length_map]

theorem mem_rowsFor {data : Table} {p : String} {r : Row} :
    r ∈ rowsFor data p ↔ r ∈ data ∧ r.best_party = p := by
  simp [rowsFor]

theorem rowsFor_ne_nil {data : Table} {p : String} (h : p ∈ partiesOf data) :
    rowsFor data p ≠ [] := by
  obtain ⟨r, hr, hbp⟩ := mem_partiesOf.1 h
  intro hnil
  have hmem : r ∈ rowsFor data p := mem_rowsFor.2 ⟨hr, hbp⟩
  rw [hnil] at hmem
  exact absurd hmem (List.not_mem_nil r)

theorem mem_current_results {data : Table} {e : CREntry} :
    e ∈ current_results data ↔ ∃ p ∈ partiesOf data, mkEntry data p = e := by
  unfold current_results
  rw [List.mem_insertionSort, List.mem_map]

end RankBased
namespace RankBased

/-! ## Facts about the group maxima -/

theorem listMaxQ_mem : ∀ {l : List ℚ} {m : ℚ}, listMaxQ l = some m → m ∈ l
  | [], _, h => by simp [listMaxQ] at h
  | x :: xs, m, h => by
    unfold listMaxQ at h
    cases hm : listMaxQ xs with
    | none =>
      rw [hm] at h
      simp only [Option.some.injEq] at h
      subst h
      exact List.mem_cons_self x xs
    | some m' =>
      rw [hm] at h
      simp only [Option.some.injEq] at h
      subst h
      rcases max_choice x m' with hc | hc
      · rw [hc]; exact List.mem_cons_self x xs
      · rw [hc]; exact List.mem_cons_of_mem x (listMaxQ_mem hm)

theorem listMaxQ_getD_zero {l : List ℚ} (h : ∀ x ∈ l, x = 0) : (listMaxQ l).getD 0 = 0 := by
  cases hm : listMaxQ l with
  | none => rfl
  | some m => simpa using h m (listMaxQ_mem hm)

theorem listMaxQ_const : ∀ {l : List ℚ} {a : ℚ}, (∀ x ∈ l, x = a) → l ≠ [] → listMaxQ l = some a
  | [], _, _, hne => absurd rfl hne
  | [x], a, h, _ => by
    have hx : x = a := h x (List.mem_cons_self x [])
    simp [listMaxQ, hx]
  | x :: y :: ys, a, h, _ => by
    have hx : x = a := h x (List.mem_cons_self _ _)
    have hmax : listMaxQ (y :: ys) = some a :=
      listMaxQ_const (fun z hz => h z (List.mem_cons_of_mem x hz)) (by simp)
    unfold listMaxQ
    rw [hmax, hx]
    simp

theorem nanMax_const : ∀ {l : List (Option ℚ)} {a : Option ℚ},
    (∀ x ∈ l, x = a) → l ≠ [] → nanMax l = a
  | [], _, _, hne => absurd rfl hne
  | [x], a, h, _ => by
    have hx : x = a := h x (List.mem_cons_self x [])
    subst hx
    cases x with
    | none => rfl
    | some q => rfl
  | x :: y :: ys, a, h, _ => by
    have hx : x = a := h x (List.mem_cons_self _ _)
    have hmax : nanMax (y :: ys) = a :=
      nanMax_const (fun z hz => h z (List.mem_cons_of_mem x hz)) (by simp)
    subst hx
    cases x with
    | none => exact hmax
    | some q =>
      unfold nanMax
      rw [hmax]
      simp

/-! ## Effect of one redistribution round on the table structure -/

theorem addPoints_ne_nil (pts : List (String × ℚ)) (r : Row) : addPoints pts r ≠ [] := by
  unfold addPoints
  cases h : pts.filter (fun q => decide (q.1 = r.best_party)) with
  | nil => simp
  | cons q ms => simp

theorem addPoints_shape {pts : List (String × ℚ)} {r r' : Row} (h : r' ∈ addPoints pts r) :
    ∃ v, r' = { r with redistributed_votes := v } := by
  unfold addPoints at h
  cases hf : pts.filter (fun q => decide (q.1 = r.best_party)) with
  | nil =>
    rw [hf] at h
    simp only [List.mem_singleton] at h
    exact ⟨none, h⟩
  | cons q ms =>
    rw [hf] at h
    simp only [List.mem_map] at h
    obtain ⟨q', _, hq⟩ := h
    exact ⟨_, hq.symm⟩

theorem zeroBottom_best_party (b : String) (r : Row) :
    (zeroBottom b r).best_party = r.best_party := by
  unfold zeroBottom; split <;> rfl

theorem redistribute_ok {data data' : Table} (h : redistribute_bottom_points data = .ok data') :
    ∃ b, bottom_party_name data = some b ∧
      data' = (data.flatMap (addPoints (points_to_redistribute data b))).map (zeroBottom b) := by
  unfold redistribute_bottom_points at h
  cases hb : bottom_party_name data with
  | none => rw [hb] at h; exact absurd h (by simp)
  | some b =>
    rw [hb] at h
    simp only [Except.ok.injEq] at h
    exact ⟨b, rfl, h.symm⟩

theorem redistribute_bp_mem {data data' : Table} (h : redistribute_bottom_points data = .ok data') :
    ∀ s, (∃ r ∈ data', r.best_party = s) ↔ ∃ r ∈ data, r.best_party = s := by
  obtain ⟨b, hb, hd⟩ := redistribute_ok h
  subst hd
  intro s
  constructor
  · rintro ⟨r', hr', hbp⟩
    simp only [List.mem_map, List.mem_flatMap] at hr'
    obtain ⟨r₂, ⟨r₀, hr₀, hr₂⟩, hz⟩ := hr'
    obtain ⟨v, hv⟩ := addPoints_shape hr₂
    refine ⟨r₀, hr₀, ?_⟩
    rw [← hbp, ← hz, zeroBottom_best_party, hv]
  · rintro ⟨r, hr, hbp⟩
    obtain ⟨r₂, hr₂⟩ : ∃ x, x ∈ addPoints (points_to_redistribute data b) r :=
      List.exists_mem_of_ne_nil _ (addPoints_ne_nil _ _)
    refine ⟨zeroBottom b r₂, ?_, ?_⟩
    · simp only [List.mem_map, List.mem_flatMap]
      exact ⟨r₂, ⟨r, hr, hr₂⟩, rfl⟩
    · obtain ⟨v, hv⟩ := addPoints_shape hr₂
      rw [zeroBottom_best_party, hv, ← hbp]

theorem redistribute_partiesOf {data data' : Table}
    (h : redistribute_bottom_points data = .ok data') :
    partiesOf data' = partiesOf data :=
  partiesOf_eq_of_mem_iff (redistribute_bp_mem h)

theorem redistribute_length_cr {data data' : Table}
    (h : redistribute_bottom_points data = .ok data') :
    (current_results data').length = (current_results data).length := by
  rw [length_current_results, length_current_results, redistribute_partiesOf h]

theorem redistribute_row_origin {data data' : Table}
    (h : redistribute_bottom_points data = .ok data') :
    ∀ r' ∈ data', ∃ r ∈ data, r'.best_party = r.best_party ∧
      (r'.current_votes = r.current_votes ∨ r'.current_votes = 0) := by
  obtain ⟨b, hb, hd⟩ := redistribute_ok h
  subst hd
  rintro r' hr'
  simp only [List.mem_map, List.mem_flatMap] at hr'
  obtain ⟨r₂, ⟨r₀, hr₀, hr₂⟩, hz⟩ := hr'
  obtain ⟨v, hv⟩ := addPoints_shape hr₂
  refine ⟨r₀, hr₀, ?_, ?_⟩
  · rw [← hz, zeroBottom_best_party, hv]
  · rw [← hz]
    unfold zeroBottom
    split
    · right; rfl
    · left; rw [hv]

end RankBased
namespace RankBased

/-! ## The elimination loop -/

/-- Fuel is semantically inert: any two fuels that are at least
`len(current_results) - loop_count` give the code loop the same result, so
running the loop with fuel `len(current_results)` computes the true result
of the unbounded Python while loop. -/
theorem simLoopFuel_fuel_irrel : ∀ (f₁ f₂ : ℕ) (data : Table) (c : ℕ),
    (current_results data).length - c ≤ f₁ → (current_results data).length - c ≤ f₂ →
    simLoopFuel f₁ data c = simLoopFuel f₂ data c := by
  intro f₁
  induction f₁ with
  | zero =>
    intro f₂ data c h1 h2
    cases f₂ with
    | zero => rfl
    | succ m =>
      unfold simLoopFuel
      cases top_party_votes_share data with
      | none => rfl
      | some t =>
        dsimp only
        have hg : ¬ (ltFifty t = true ∧ c < (current_results data).length) := by
          rintro ⟨-, hlt⟩; omega
        rw [if_neg hg]
  | succ n ih =>
    intro f₂ data c h1 h2
    cases f₂ with
    | zero =>
      unfold simLoopFuel
      cases top_party_votes_share data with
      | none => rfl
      | some t =>
        dsimp only
        have hg : ¬ (ltFifty t = true ∧ c < (current_results data).length) := by
          rintro ⟨-, hlt⟩; omega
        rw [if_neg hg]
    | succ m =>
      unfold simLoopFuel
      cases top_party_votes_share data with
      | none => rfl
      | some t =>
        dsimp only
        by_cases hg : ltFifty t = true ∧ c < (current_results data).length
        · rw [if_pos hg, if_pos hg]
          cases hred : redistribute_bottom_points data with
          | error e => rfl
          | ok data' =>
            exact ih m data' (c + 1) (by rw [redistribute_length_cr hred]; omega)
              (by rw [redistribute_length_cr hred]; omega)
        · rw [if_neg hg, if_neg hg]

/-- On a successful run the final loop counter either equals the initial
one (no round ran) or is at most the number of distinct parties (from the
guard of the last round that ran). -/
theorem simLoopFuel_count : ∀ (fuel : ℕ) (data : Table) (c : ℕ) (d₁ : Table) (k : ℕ),
    simLoopFuel fuel data c = .ok (d₁, k) → k = c ∨ k ≤ (current_results data).length := by
  intro fuel
  induction fuel with
  | zero =>
    intro data c d₁ k h
    unfold simLoopFuel at h
    split at h
    · exact absurd h (by simp)
    · simp only [Except.ok.injEq, Prod.mk.injEq] at h
      exact Or.inl h.2.symm
  | succ n ih =>
    intro data c d₁ k h
    unfold simLoopFuel at h
    split at h
    · exact absurd h (by simp)
    · rename_i t htop
      by_cases hg : ltFifty t = true ∧ c < (current_results data).length
      · rw [if_pos hg] at h
        have hclen : c < (current_results data).length := hg.2
        split at h
        · exact absurd h (by simp)
        · rename_i data' hred
          rcases ih data' (c + 1) d₁ k h with hk | hk
          · right; omega
          · right; rw [redistribute_length_cr hred] at hk; exact hk
      · rw [if_neg hg] at h
        simp only [Except.ok.injEq, Prod.mk.injEq] at h
        exact Or.inl h.2.symm

/-- An eliminated party stays eliminated through one round: if all of a
party's rows carry zero current_votes before `redistribute_bottom_points`,
they do after as well. -/
theorem redistribute_preserves_zero {data data' : Table} {p : String}
    (h : redistribute_bottom_points data = .ok data')
    (h0 : ∀ r ∈ data, r.best_party = p → r.current_votes = 0) :
    ∀ r ∈ data', r.best_party = p → r.current_votes = 0 := by
  intro r' hr' hbp
  obtain ⟨r, hr, hbpeq, hcv⟩ := redistribute_row_origin h r' hr'
  rcases hcv with hcv | hcv
  · rw [hcv]; exact h0 r hr (hbpeq ▸ hbp)
  · exact hcv

/-- An eliminated party stays eliminated through the whole loop. -/
theorem simLoopFuel_preserves_zero : ∀ (fuel : ℕ) (data : Table) (c : ℕ) (d₁ : Table) (k : ℕ)
    (p : String), simLoopFuel fuel data c = .ok (d₁, k) →
    (∀ r ∈ data, r.best_party = p → r.current_votes = 0) →
    ∀ r ∈ d₁, r.best_party = p → r.current_votes = 0 := by
  intro fuel
  induction fuel with
  | zero =>
    intro data c d₁ k p h h0
    unfold simLoopFuel at h
    split at h
    · exact absurd h (by simp)
    · simp only [Except.ok.injEq, Prod.mk.injEq] at h
      exact h.1 ▸ h0
  | succ n ih =>
    intro data c d₁ k p h h0
    unfold simLoopFuel at h
    split at h
    · exact absurd h (by simp)
    · rename_i t htop
      by_cases hg : ltFifty t = true ∧ c < (current_results data).length
      · rw [if_pos hg] at h
        split at h
        · exact absurd h (by simp)
        · rename_i data' hred
          exact ih data' (c + 1) d₁ k p h (redistribute_preserves_zero hred h0)
      · rw [if_neg hg] at h
        simp only [Except.ok.injEq, Prod.mk.injEq] at h
        exact h.1 ▸ h0

/-- A party whose rows all carry zero current_votes is never selected as
the bottom party: `bottom_party_name` filters zero-vote standings out. -/
theorem bottom_ne_of_all_zero {data : Table} {p : String}
    (h0 : ∀ r ∈ data, r.best_party = p → r.current_votes = 0) :
    bottom_party_name data ≠ some p := by
  intro hb
  unfold bottom_party_name at hb
  cases hl : ((current_results data).filter fun e => decide (e.current_votes ≠ 0)).getLast? with
  | none => rw [hl] at hb; simp at hb
  | some e =>
    rw [hl] at hb
    simp only [Option.map_some', Option.some.injEq] at hb
    have he : e ∈ (current_results data).filter (fun e => decide (e.current_votes ≠ 0)) :=
      List.mem_of_getLast?_eq_some hl
    rw [List.mem_filter] at he
    obtain ⟨hecr, hne⟩ := he
    have hne' : e.current_votes ≠ 0 := of_decide_eq_true hne
    obtain ⟨q, _, hqe⟩ := mem_current_results.1 hecr
    have hqp : q = p := by rw [← hqe] at hb; exact hb
    apply hne'
    rw [← hqe]
    show (listMaxQ ((rowsFor data q).map Row.current_votes)).getD 0 = 0
    apply listMaxQ_getD_zero
    intro x hx
    rw [List.mem_map] at hx
    obtain ⟨r, hr, hrx⟩ := hx
    rw [mem_rowsFor] at hr
    rw [← hrx]
    exact h0 r hr.1 (hr.2.trans hqp)

end RankBased
namespace RankBased

/-- The table `c7tbl` after its single redistribution round (party A, the
only party with nonzero votes, is eliminated; its transfers go to the
absent destination x, so every redistributed_votes becomes NaN). -/
def c7after : Table :=
  [mkRow "A" "x" 0 0 40 none,
   mkRow "B" "x" 0 0 30 none]

/-! ## Claim theorems -/

/-- C8: invoking the simulation on a table with zero rows fails immediately
with the empty-dataset error (the `IndexError` of `.iloc[0]` inside the
very first `top_party_votes_share` guard evaluation, before any
redistribution round): the simulation does not start and no tally is
produced. -/
theorem claim8_empty_dataset :
    simulateRankBasedElection [] = .error SimError.emptyDataset := by
  with_unfolding_all rfl

/-- C9: `bloc` is total on the enumerated party codes of its literal
dictionary — in particular it maps M to the Alliansen bloc — and every code
outside the enumerated set fails (the dictionary lookup misses, modelled as
`none`). -/
theorem claim9_bloc_total (p : String) (hp : p ∉ bloc_table.map Prod.fst) :
    bloc "M" = some "Alliansen" ∧ bloc p = none := by
  constructor
  · rfl
  · unfold bloc
    rw [List.find?_eq_none.2, Option.map_none']
    intro q hq
    simp only [decide_eq_true_eq]
    intro hqe
    have hmem : q.1 ∈ bloc_table.map Prod.fst := List.mem_map_of_mem Prod.fst hq
    rw [hqe] at hmem
    exact hp hmem

/-- C9 witness: evaluated at the in-domain code M and the out-of-domain
code XX. -/
theorem claim9_witness : bloc "M" = some "Alliansen" ∧ bloc "XX" = none :=
  claim9_bloc_total "XX" (by decide)

/-- C3 counterexample: on the Scenario A table the loop guard is already
false at entry (the leading totaled share is exactly 50, and 50 < 50 is
false), so zero rounds run — not one — Z is never eliminated, and the
final tally gives X its 50 votes — not 70. -/
theorem claim3_counterexample :
    codeLoopRounds tblA = some 0 ∧ (some 0 : Option ℕ) ≠ some 1 ∧
    finalVotes tblA "X" = some (some 50) ∧
    (some (some (50 : ℚ)) : Option (Option ℚ)) ≠ some (some 70) := by
  refine ⟨by with_unfolding_all rfl, by decide, by with_unfolding_all rfl, by decide⟩

/-- C3 amended: on the Scenario A input the loop exits immediately at
loop_count 1 with the table unchanged (the leading share is already 50),
no party is eliminated, and the final tally is X = 50, Y = 30, Z = 20. -/
theorem claim3_amended :
    simLoopFuel (current_results tblA).length tblA 1 = .ok (tblA, 1) ∧
    simulateRankBasedElection tblA = .ok
      [⟨"X", some 50, some 0, some 50, some 50⟩,
       ⟨"Y", some 30, some 0, some 30, none⟩,
       ⟨"Z", some 20, some 0, some 20, none⟩] := by
  refine ⟨by with_unfolding_all rfl, by with_unfolding_all rfl⟩

/-- C1 counterexample: on `c1tbl` the share of the party ranked first by
raw current_votes alone (A, totaled share 10) differs from what
`top_party_votes_share` returns (25, the totaled share of B), because the
code re-sorts by the totaled column before taking `.iloc[0]`. -/
theorem claim1_counterexample :
    leading_share_ranked_by_current c1tbl = some (some 10) ∧
    top_party_votes_share c1tbl = some (some 25) ∧
    (some (some (10 : ℚ)) : Option (Option ℚ)) ≠ some (some 25) := by
  refine ⟨by with_unfolding_all rfl, by with_unfolding_all rfl, by decide⟩

instance : IsTotal (Option ℚ) totDesc := ⟨fun a b => le_total (nv b) (nv a)⟩

instance : IsTrans (Option ℚ) totDesc := ⟨fun _ _ _ hab hbc => le_trans hbc hab⟩

/-- C1 amended: `top_party_votes_share` returns the maximum of
`current_votes + redistributed_votes` over all parties (a single-step
rank-and-report-by-total, with NaN totals ranked last), not the total of
the party leading by raw current_votes. -/
theorem claim1_amended (data : Table) (t : Option ℚ)
    (h : top_party_votes_share data = some t) :
    (∃ e ∈ current_results data, totalVotes e = t) ∧
    ∀ e ∈ current_results data, nv (totalVotes e) ≤ nv t := by
  unfold top_party_votes_share at h
  cases hcase : List.insertionSort totDesc ((current_results data).map totalVotes) with
  | nil => rw [hcase] at h; simp at h
  | cons x xs =>
    rw [hcase] at h
    simp only [List.head?_cons, Option.some.injEq] at h
    subst h
    have hsorted : List.Sorted totDesc
        (List.insertionSort totDesc ((current_results data).map totalVotes)) :=
      List.sorted_insertionSort totDesc _
    rw [hcase] at hsorted
    constructor
    · have hx : x ∈ List.insertionSort totDesc ((current_results data).map totalVotes) := by
        rw [hcase]; exact List.mem_cons_self x xs
      rw [List.mem_insertionSort, List.mem_map] at hx
      obtain ⟨e, he, het⟩ := hx
      exact ⟨e, he, het⟩
    · intro e he
      have hmem : totalVotes e ∈ List.insertionSort totDesc
          ((current_results data).map totalVotes) := by
        rw [List.mem_insertionSort]
        exact List.mem_map_of_mem totalVotes he
      rw [hcase] at hmem
      rcases List.mem_cons.1 hmem with heq | hmem'
      · rw [heq]
      · exact List.rel_of_sorted_cons hsorted _ hmem'

/-- C1 witness: the amended statement evaluated on `c1tbl`, whose top
share is 25. -/
theorem claim1_witness :
    (∃ e ∈ current_results c1tbl, totalVotes e = some 25) ∧
    ∀ e ∈ current_results c1tbl, nv (totalVotes e) ≤ nv (some 25) :=
  claim1_amended c1tbl (some 25) (by with_unfolding_all rfl)

/-- C5: on a successful run started (as in the code) at loop_count 1 with
fuel `len(current_results)`, the number of executed redistribution rounds —
final loop_count minus the initial 1 — is at most the number of distinct
best_party values of the input table. -/
theorem claim5_termination_bound (data : Table) (d₁ : Table) (k : ℕ)
    (h : simLoopFuel (current_results data).length data 1 = .ok (d₁, k)) :
    k - 1 ≤ (partiesOf data).length := by
  rcases simLoopFuel_count (current_results data).length data 1 d₁ k h with hk | hk
  · omega
  · rw [length_current_results] at hk; omega

/-- C5 witness: the two-party table `w10tbl` runs exactly one round
(final loop_count 2). -/
theorem claim5_witness : 2 - 1 ≤ (partiesOf w10tbl).length :=
  claim5_termination_bound w10tbl w10after 2 (by with_unfolding_all rfl)

/-- C7: once every row of a party carries zero current_votes, that party is
not selected as the bottom party of the current table, and after any run of
the elimination loop from that table all of its rows still carry zero
current_votes (the loop only ever zeroes, and transfers touch only
redistributed_votes). -/
theorem claim7_monotonic_elimination (data : Table) (p : String) (fuel c : ℕ)
    (d₁ : Table) (k : ℕ)
    (h0 : ∀ r ∈ data, r.best_party = p → r.current_votes = 0)
    (hrun : simLoopFuel fuel data c = .ok (d₁, k)) :
    bottom_party_name data ≠ some p ∧
    ∀ r ∈ d₁, r.best_party = p → r.current_votes = 0 :=
  ⟨bottom_ne_of_all_zero h0, simLoopFuel_preserves_zero fuel data c d₁ k p hrun h0⟩

/-- C7 witness: on `c7tbl` party B is already eliminated; the bottom party
is not B and B stays at zero through the run. -/
theorem claim7_witness :
    bottom_party_name c7tbl ≠ some "B" ∧
    ∀ r ∈ c7after, r.best_party = "B" → r.current_votes = 0 :=
  claim7_monotonic_elimination c7tbl "B" 2 1 c7after 2 (by decide)
    (by with_unfolding_all rfl)

/-- C6 counterexample: on the four-party table `tbl4` (nobody ever reaches
a 50 share) the code loop runs 3 rounds, while the machine the spec
describes — round_count from 0 against the number of distinct parties with
nonzero votes in the current table — runs only 2 rounds: the code does not
implement the specified state machine. -/
theorem claim6_counterexample :
    codeLoopRounds tbl4 = some 3 ∧ specClaimRounds tbl4 = some 2 ∧
    codeLoopRounds tbl4 ≠ specClaimRounds tbl4 := by
  have h1 : codeLoopRounds tbl4 = some 3 := by with_unfolding_all rfl
  have h2 : specClaimRounds tbl4 = some 2 := by with_unfolding_all rfl
  refine ⟨h1, h2, ?_⟩
  rw [h1, h2]
  decide

end RankBased
namespace RankBased

/-- C6 amended: the code loop is the corrected abstract machine up to a
counter shift: with round_count starting at 0, a round is applied while
the leading share is below 50 AND round_count is below (number of distinct
best_party values in the current table, zeroed parties included) minus
one; the code's loop_count is exactly that round_count plus one. -/
theorem claim6_amended : ∀ (fuel : ℕ) (data : Table) (c : ℕ),
    simLoopFuel fuel data (c + 1) =
      Except.map (fun pr => (pr.1, pr.2 + 1)) (specLoopCorrected fuel data c) := by
  intro fuel
  induction fuel with
  | zero =>
    intro data c
    unfold simLoopFuel specLoopCorrected
    cases top_party_votes_share data with
    | none => rfl
    | some t => rfl
  | succ n ih =>
    intro data c
    unfold simLoopFuel specLoopCorrected
    cases top_party_votes_share data with
    | none => rfl
    | some t =>
      dsimp only
      by_cases hg : ltFifty t = true ∧ c + 1 < (current_results data).length
      · obtain ⟨hg1, hg2⟩ := hg
        have hg' : ltFifty t = true ∧ c < (current_results data).length - 1 :=
          ⟨hg1, by omega⟩
        rw [if_pos ⟨hg1, hg2⟩, if_pos hg']
        cases redistribute_bottom_points data with
        | error e => rfl
        | ok data' => exact ih data' (c + 1)
      · have hg' : ¬ (ltFifty t = true ∧ c < (current_results data).length - 1) := by
          rintro ⟨h1, h2⟩
          exact hg ⟨h1, by omega⟩
        rw [if_neg hg, if_neg hg']
        rfl

/-- C2 counterexample: on `c2tbl` the bottom party C transfers only to A;
row B matches no destination, and after the round its redistributed_votes
is NaN (`none`), not its previous value 0 — the row is not left
unaffected. -/
theorem claim2_counterexample :
    bottom_party_name c2tbl = some "C" ∧
    redistribute_bottom_points c2tbl = .ok c2after ∧
    (∀ q ∈ points_to_redistribute c2tbl "C", q.1 ≠ "B") ∧
    c2tbl.map Row.redistributed_votes = [some 0, some 0, some 0] ∧
    c2after.map Row.redistributed_votes = [some 20, none, none] := by
  refine ⟨by with_unfolding_all rfl, by with_unfolding_all rfl, by decide, by decide, by decide⟩

/-- C2 amended: after a round, a row whose best_party matches no
destination of the eliminated party appears in the output with
current_votes unchanged (zeroed exactly when it belongs to the eliminated
party itself) but with its redistributed_votes turned into NaN: the
left-join leaves the addend missing and adding the missing addend to the
accumulator yields NaN — it is not an error, but not an unchanged value
either. -/
theorem claim2_amended (data data' : Table) (b : String) (r : Row)
    (hb : bottom_party_name data = some b)
    (hred : redistribute_bottom_points data = .ok data')
    (hr : r ∈ data)
    (hmiss : ∀ q ∈ points_to_redistribute data b, q.1 ≠ r.best_party) :
    (if r.best_party = b
      then { r with current_votes := 0, redistributed_votes := none }
      else { r with redistributed_votes := none }) ∈ data' := by
  obtain ⟨b', hb', hd⟩ := redistribute_ok hred
  rw [hb] at hb'
  injection hb' with hbe
  subst hbe
  subst hd
  have hfilter : (points_to_redistribute data b).filter
      (fun q => decide (q.1 = r.best_party)) = [] := by
    rw [List.filter_eq_nil_iff]
    intro q hq
    simp only [decide_eq_true_eq]
    exact hmiss q hq
  have haddp : addPoints (points_to_redistribute data b) r =
      [{ r with redistributed_votes := none }] := by
    unfold addPoints
    rw [hfilter]
  have hmem : { r with redistributed_votes := none } ∈
      data.flatMap (addPoints (points_to_redistribute data b)) :=
    List.mem_flatMap.2 ⟨r, hr, by rw [haddp]; exact List.mem_singleton_self _⟩
  have hmap := List.mem_map_of_mem (zeroBottom b) hmem
  have hz : zeroBottom b { r with redistributed_votes := none } =
      (if r.best_party = b
        then { r with current_votes := 0, redistributed_votes := none }
        else { r with redistributed_votes := none }) := by
    by_cases hc : r.best_party = b
    · simp [zeroBottom, hc]
    · simp [zeroBottom, hc]
  rw [hz] at hmap
  exact hmap

/-- C2 witness: row B of `c2tbl` (no destination of the eliminated party C
matches it) appears after the round with its redistributed_votes NaN. -/
theorem claim2_witness : mkRow "B" "A" 0 30 30 none ∈ c2after := by
  have h := claim2_amended c2tbl c2after "C" (mkRow "B" "A" 0 30 30 (some 0))
    (by with_unfolding_all rfl) (by with_unfolding_all rfl) (by decide) (by decide)
  rw [if_neg (by decide : ¬ (mkRow "B" "A" 0 30 30 (some 0)).best_party = "C")] at h
  exact h

theorem listMeanQ_zero {l : List ℚ} (h : ∀ x ∈ l, x = 0) : listMeanQ l = 0 := by
  unfold listMeanQ
  rw [List.sum_eq_zero h, zero_div]

/-- C10: when the loop ends with every row of a party p zeroed while p has
no entry in the diehard frame, finalization's outer merge leaves p's
diehard value missing, the zero current_votes of p is replaced by that
missing (NaN) value, and the final tally entry of p is NaN — not p's
accumulated redistributed votes. -/
theorem claim10_nan_tally (data : Table) (d₁ : Table) (k : ℕ) (p : String)
    (hrun : simLoopFuel (current_results data).length data 1 = .ok (d₁, k))
    (helim : ∀ r ∈ d₁, r.best_party = p → r.current_votes = 0)
    (hnodh : ∀ q ∈ diehard_votes data, q.1 ≠ p) :
    simulateRankBasedElection data = .ok (finalize d₁ (diehard_votes data)) ∧
    ∀ t ∈ finalize d₁ (diehard_votes data), t.best_party = p → t.current_votes = none := by
  constructor
  · unfold simulateRankBasedElection
    rw [hrun]
  · intro t ht hbp
    unfold finalize at ht
    simp only [List.mem_map, List.mem_append] at ht
    obtain ⟨s₁, ⟨s₀, hs₀, hfs⟩, hgt⟩ := ht
    have hbp₁ : s₁.best_party = t.best_party := by rw [← hgt]
    have hbp₀ : s₀.best_party = s₁.best_party := by
      rw [← hfs]; split <;> rfl
    rcases hs₀ with ⟨p', hp', hcoll⟩ | ⟨q, hq, hqs⟩
    · have hbpc : s₀.best_party = p' := by rw [← hcoll]; rfl
      have hp'p : p' = p := hbpc.symm.trans (hbp₀.trans (hbp₁.trans hbp))
      subst hp'p
      have hcv0 : s₀.current_votes = some 0 := by
        rw [← hcoll]
        show some (listMeanQ ((rowsFor d₁ p').map Row.current_votes)) = some 0
        congr 1
        apply listMeanQ_zero
        intro x hx
        rw [List.mem_map] at hx
        obtain ⟨s, hs, hsx⟩ := hx
        rw [mem_rowsFor] at hs
        rw [← hsx]
        exact helim s hs.1 hs.2
      have hdh : s₀.diehard_votes = none := by
        rw [← hcoll]
        show ((diehard_votes data).find? (fun q => decide (q.1 = p'))).map Prod.snd = none
        rw [List.find?_eq_none.2, Option.map_none']
        intro q hq
        simp only [decide_eq_true_eq]
        exact hnodh q hq
      have hs₁cv : s₁.current_votes = none := by
        rw [← hfs, if_pos hcv0]
        exact hdh
      rw [← hgt]
      show nadd s₁.current_votes s₁.redistributed_votes = none
      rw [hs₁cv]
      rfl
    · rw [List.mem_filter] at hq
      have hbpc : s₀.best_party = q.1 := by rw [← hqs]
      have hq1 : q.1 = t.best_party := hbpc.symm.trans (hbp₀.trans hbp₁)
      exact absurd (hq1.trans hbp) (hnodh q hq.1)

/-- C10 witness: on `w10tbl` party B is eliminated in round 1, has no
diehard rows, and its final tally entry is NaN. -/
theorem claim10_witness :
    simulateRankBasedElection w10tbl = .ok (finalize w10after (diehard_votes w10tbl)) ∧
    ∀ t ∈ finalize w10after (diehard_votes w10tbl), t.best_party = "B" →
      t.current_votes = none :=
  claim10_nan_tally w10tbl w10after 2 "B" (by with_unfolding_all rfl) (by decide) (by decide)

end RankBased
namespace RankBased

/-- C4 counterexample: on `c2tbl` every destination of the eliminated
party C appears as a best_party (the claim's hypothesis holds), yet the
per-party sum of current_votes + redistributed_votes is 100 before the
round and NaN after it: parties that are not destinations (A-missing rows)
get NaN-poisoned, so the two sums are not equal. -/
theorem claim4_counterexample :
    (∀ q ∈ points_to_redistribute c2tbl "C", ∃ r ∈ c2tbl, r.best_party = q.1) ∧
    bottom_party_name c2tbl = some "C" ∧
    redistribute_bottom_points c2tbl = .ok c2after ∧
    total_votes_sum c2tbl = ((100 : ℚ) : WithBot ℚ) ∧
    total_votes_sum c2after = ⊥ := by
  refine ⟨by decide, by with_unfolding_all rfl, by with_unfolding_all rfl,
    by with_unfolding_all rfl, by with_unfolding_all rfl⟩

theorem zeroBottom_cv_eq (b : String) (s : Row) (X : Option ℚ) :
    (zeroBottom b { s with redistributed_votes := X }).current_votes =
      if s.best_party = b then 0 else s.current_votes := by
  by_cases hc : s.best_party = b
  · simp [zeroBottom, hc]
  · simp [zeroBottom, hc]

theorem zeroBottom_rv_eq (b : String) (s : Row) (X : Option ℚ) :
    (zeroBottom b { s with redistributed_votes := X }).redistributed_votes = X := by
  by_cases hc : s.best_party = b
  · simp [zeroBottom, hc]
  · simp [zeroBottom, hc]

/-- With pairwise-distinct destinations, the transfer pairs naming a given
destination form exactly the singleton of its pair. -/
theorem filter_fst_singleton {pts : List (String × ℚ)} (hnd : (pts.map Prod.fst).Nodup)
    {q : String × ℚ} (hq : q ∈ pts) :
    pts.filter (fun x => decide (x.1 = q.1)) = [q] := by
  induction pts with
  | nil => simp at hq
  | cons x xs ih =>
    rw [List.map_cons, List.nodup_cons] at hnd
    rcases List.mem_cons.1 hq with rfl | hq'
    · rw [List.filter_cons_of_pos (by simp)]
      have hnil : xs.filter (fun y => decide (y.1 = q.1)) = [] := by
        rw [List.filter_eq_nil_iff]
        intro y hy
        simp only [decide_eq_true_eq]
        intro he
        have hmem : y.1 ∈ xs.map Prod.fst := List.mem_map_of_mem Prod.fst hy
        rw [he] at hmem
        exact hnd.1 hmem
      rw [hnil]
    · have hx : ¬ (x.1 = q.1) := by
        intro he
        have hmem : q.1 ∈ xs.map Prod.fst := List.mem_map_of_mem Prod.fst hq'
        rw [← he] at hmem
        exact hnd.1 hmem
      rw [List.filter_cons_of_neg (by simpa using hx)]
      exact ih hnd.2 hq'

theorem transferTo_eq {pts : List (String × ℚ)} (hnd : (pts.map Prod.fst).Nodup)
    {q : String × ℚ} (hq : q ∈ pts) : transferTo pts q.1 = q.2 := by
  unfold transferTo
  rw [filter_fst_singleton hnd hq]
  simp

/-- A covered row is turned by the left-merge step into exactly one row,
with the unique matching transfer added to its redistributed_votes. -/
theorem addPoints_of_mem {pts : List (String × ℚ)} (hnd : (pts.map Prod.fst).Nodup)
    {r : Row} {q : String × ℚ} (hq : q ∈ pts) (hqr : q.1 = r.best_party) :
    addPoints pts r =
      [{ r with redistributed_votes := r.redistributed_votes.map (fun v => v + transferTo pts r.best_party) }] := by
  have hf : pts.filter (fun x => decide (x.1 = r.best_party)) = [q] := by
    rw [← hqr]
    exact filter_fst_singleton hnd hq
  have ht : transferTo pts r.best_party = q.2 := by
    rw [← hqr]
    exact transferTo_eq hnd hq
  unfold addPoints
  rw [hf, ht]
  rfl

/-- The per-party row set after one round, when every row is covered by
some destination: each of the party's rows gains the party's unique
transfer on redistributed_votes, and is zeroed if the party is the bottom
party. -/
theorem rowsFor_flatMap_addPoints (pts : List (String × ℚ)) (b p : String) :
    ∀ l : Table, (∀ r ∈ l, ∃ q ∈ pts, q.1 = r.best_party) → (pts.map Prod.fst).Nodup →
    rowsFor ((l.flatMap (addPoints pts)).map (zeroBottom b)) p =
      (rowsFor l p).map (fun r => zeroBottom b
        { r with redistributed_votes := r.redistributed_votes.map (fun v => v + transferTo pts p) })
  | [], _, _ => by simp [rowsFor]
  | r :: l, hcov, hnd => by
    obtain ⟨q, hq, hqr⟩ := hcov r (List.mem_cons_self r l)
    have ih := rowsFor_flatMap_addPoints pts b p l
      (fun s hs => hcov s (List.mem_cons_of_mem r hs)) hnd
    rw [List.flatMap_cons, List.map_append]
    unfold rowsFor
    rw [List.filter_append, addPoints_of_mem hnd hq hqr, List.map_cons, List.map_nil]
    by_cases hbp : r.best_party = p
    · rw [List.filter_cons_of_pos
        (by simp [zeroBottom_best_party, hbp]),
        List.filter_nil,
        List.filter_cons_of_pos (by simp [hbp]),
        List.map_cons]
      rw [List.singleton_append]
      unfold rowsFor at ih
      rw [ih, hbp]
    · rw [List.filter_cons_of_neg
        (by simp [zeroBottom_best_party, hbp]),
        List.filter_nil,
        List.filter_cons_of_neg (by simp [hbp]),
        List.nil_append]
      exact ih

end RankBased
namespace RankBased

/-- Under the per-party-constant-columns invariant, the collapsed group-max
standings row of a party carries exactly the values of any of its rows. -/
theorem mkEntry_vals_of_const {data : Table} {p : String} {r : Row}
    (hconst : ∀ r₁ ∈ data, ∀ r₂ ∈ data, r₁.best_party = r₂.best_party →
      r₁.current_votes = r₂.current_votes ∧ r₁.redistributed_votes = r₂.redistributed_votes)
    (hr : r ∈ rowsFor data p) :
    (mkEntry data p).current_votes = r.current_votes ∧
    (mkEntry data p).redistributed_votes = r.redistributed_votes := by
  have hrd := mem_rowsFor.1 hr
  have hne : (rowsFor data p) ≠ [] := List.ne_nil_of_mem hr
  constructor
  · have hmax : listMaxQ ((rowsFor data p).map Row.current_votes) = some r.current_votes := by
      apply listMaxQ_const
      · intro x hx
        rw [List.mem_map] at hx
        obtain ⟨s, hs, hsx⟩ := hx
        have hsd := mem_rowsFor.1 hs
        rw [← hsx]
        exact (hconst s hsd.1 r hrd.1 (hsd.2.trans hrd.2.symm)).1
      · rw [Ne, List.map_eq_nil_iff]
        exact hne
    show (listMaxQ ((rowsFor data p).map Row.current_votes)).getD 0 = r.current_votes
    rw [hmax]
    rfl
  · apply nanMax_const
    · intro x hx
      rw [List.mem_map] at hx
      obtain ⟨s, hs, hsx⟩ := hx
      have hsd := mem_rowsFor.1 hs
      rw [← hsx]
      exact (hconst s hsd.1 r hrd.1 (hsd.2.trans hrd.2.symm)).2
    · rw [Ne, List.map_eq_nil_iff]
      exact hne

/-- The per-party sum defining `total_votes_sum`, indexed by the sorted
party list instead of the standings order (they are permutations). -/
theorem total_votes_sum_parties (data : Table) :
    total_votes_sum data = ((partiesOf data).map (fun p =>
      ((mkEntry data p).current_votes : WithBot ℚ) +
        nv (mkEntry data p).redistributed_votes)).sum := by
  unfold total_votes_sum current_results
  rw [((List.perm_insertionSort crDesc ((partiesOf data).map (mkEntry data))).map
      (fun e => (e.current_votes : WithBot ℚ) + nv e.redistributed_votes)).sum_eq]
  rw [List.map_map]
  rfl

theorem sum_map_coe_q (l : List String) (f : String → ℚ) :
    (l.map (fun p => ((f p : ℚ) : WithBot ℚ))).sum = ((l.map f).sum : WithBot ℚ) := by
  induction l with
  | nil => simp
  | cons x xs ih =>
    rw [List.map_cons, List.map_cons, List.sum_cons, List.sum_cons, ih, ← WithBot.coe_add]

theorem sum_map_ite_zero (l : List String) (b : String) (f : String → ℚ)
    (hnd : l.Nodup) (hb : b ∈ l) :
    (l.map (fun p => if p = b then 0 else f p)).sum + f b = (l.map f).sum := by
  induction l with
  | nil => simp at hb
  | cons x xs ih =>
    rw [List.nodup_cons] at hnd
    rcases List.mem_cons.1 hb with heq | hb'
    · rw [List.map_cons, List.map_cons, List.sum_cons, List.sum_cons, if_pos heq.symm]
      have hrest : xs.map (fun p => if p = b then 0 else f p) = xs.map f := by
        apply List.map_congr_left
        intro p hp
        rw [if_neg]
        intro he
        rw [he, heq] at hp
        exact hnd.1 hp
      rw [hrest, heq]
      ring
    · have hx : x ≠ b := by
        intro he
        exact hnd.1 (he ▸ hb')
      rw [List.map_cons, List.map_cons, List.sum_cons, List.sum_cons, if_neg hx]
      have := ih hnd.2 hb'
      linarith

theorem sum_transferTo (pts : List (String × ℚ)) (parties : List String)
    (hnd : (pts.map Prod.fst).Nodup) (hpnd : parties.Nodup)
    (hmem : ∀ s, s ∈ parties ↔ s ∈ pts.map Prod.fst) :
    (parties.map (fun p => transferTo pts p)).sum = (pts.map Prod.snd).sum := by
  have hperm : parties.Perm (pts.map Prod.fst) :=
    (List.perm_ext_iff_of_nodup hpnd hnd).2 hmem
  rw [(hperm.map (fun p => transferTo pts p)).sum_eq, List.map_map]
  apply congrArg List.sum
  apply List.map_congr_left
  intro q hq
  exact transferTo_eq hnd hq

theorem bottom_mem_partiesOf {data : Table} {b : String}
    (hb : bottom_party_name data = some b) : b ∈ partiesOf data := by
  unfold bottom_party_name at hb
  cases hl : ((current_results data).filter fun e => decide (e.current_votes ≠ 0)).getLast? with
  | none => rw [hl] at hb; simp at hb
  | some e =>
    rw [hl] at hb
    simp only [Option.map_some', Option.some.injEq] at hb
    have he : e ∈ (current_results data).filter (fun e => decide (e.current_votes ≠ 0)) :=
      List.mem_of_getLast?_eq_some hl
    rw [List.mem_filter] at he
    obtain ⟨hecr, -⟩ := he
    obtain ⟨q, hq, hqe⟩ := mem_current_results.1 hecr
    rw [← hb, ← hqe]
    exact hq

end RankBased
namespace RankBased

/-- C4 amended: one round of `redistribute_bottom_points` preserves the
per-party sum of current_votes + redistributed_votes exactly under the
conditions the code actually needs: every row's party is among the
eliminated party's destinations (otherwise its accumulator becomes NaN and
poisons the sum), every destination appears as a best_party (otherwise its
transfer is dropped), the eliminated party's redistribution shares sum to
one, its rows satisfy initial_votes = current_votes (true until a party is
zeroed, since current_votes is never incremented), the table satisfies the
constant-columns-per-party invariant, no accumulator is already NaN, and
the destination list has no duplicates. -/
theorem claim4_amended (data data' : Table) (b : String)
    (hb : bottom_party_name data = some b)
    (hred : redistribute_bottom_points data = .ok data')
    (hconst : ∀ r₁ ∈ data, ∀ r₂ ∈ data, r₁.best_party = r₂.best_party →
      r₁.current_votes = r₂.current_votes ∧ r₁.redistributed_votes = r₂.redistributed_votes)
    (hsome : ∀ r ∈ data, r.redistributed_votes ≠ none)
    (hcov : ∀ r ∈ data, ∃ q ∈ points_to_redistribute data b, q.1 = r.best_party)
    (hdest : ∀ q ∈ points_to_redistribute data b, ∃ r ∈ data, r.best_party = q.1)
    (hshares : ((rowsFor data b).map Row.redistribution_share).sum = 1)
    (hiv : ∀ r ∈ data, r.best_party = b → r.initial_votes = r.current_votes)
    (hnd : ((points_to_redistribute data b).map Prod.fst).Nodup) :
    total_votes_sum data' = total_votes_sum data := by
  obtain ⟨b', hb', hd⟩ := redistribute_ok hred
  rw [hb] at hb'
  injection hb' with hbe
  subst hbe
  have hparties : partiesOf data' = partiesOf data := redistribute_partiesOf hred
  have hrows : ∀ p, rowsFor data' p =
      (rowsFor data p).map (fun r => zeroBottom b
        { r with redistributed_votes := r.redistributed_votes.map (fun v => v + transferTo (points_to_redistribute data b) p) }) := by
    intro p
    rw [hd]
    exact rowsFor_flatMap_addPoints (points_to_redistribute data b) b p data hcov hnd
  rw [total_votes_sum_parties, total_votes_sum_parties, hparties]
  have key : ∀ p ∈ partiesOf data,
      (((mkEntry data' p).current_votes : WithBot ℚ) + nv (mkEntry data' p).redistributed_votes
        = (((if p = b then 0 else (mkEntry data p).current_votes) +
            ((mkEntry data p).redistributed_votes.getD 0 +
              transferTo (points_to_redistribute data b) p) : ℚ) : WithBot ℚ))
      ∧ (((mkEntry data p).current_votes : WithBot ℚ) + nv (mkEntry data p).redistributed_votes
        = (((mkEntry data p).current_votes +
            (mkEntry data p).redistributed_votes.getD 0 : ℚ) : WithBot ℚ)) := by
    intro p hp
    obtain ⟨r, hr⟩ := List.exists_mem_of_ne_nil _ (rowsFor_ne_nil hp)
    have hvals := mkEntry_vals_of_const hconst hr
    have hrd := mem_rowsFor.1 hr
    obtain ⟨v, hv⟩ : ∃ v, r.redistributed_votes = some v := by
      cases hvv : r.redistributed_votes with
      | none => exact absurd hvv (hsome r hrd.1)
      | some v => exact ⟨v, rfl⟩
    have hcv : (mkEntry data p).current_votes = r.current_votes := hvals.1
    have hrv : (mkEntry data p).redistributed_votes = some v := by rw [hvals.2, hv]
    have hne' : (rowsFor data' p) ≠ [] := by
      rw [hrows p, Ne, List.map_eq_nil_iff]
      exact List.ne_nil_of_mem hr
    have hcv' : (mkEntry data' p).current_votes = (if p = b then 0 else r.current_votes) := by
      have hmax : listMaxQ ((rowsFor data' p).map Row.current_votes)
          = some (if p = b then 0 else r.current_votes) := by
        apply listMaxQ_const
        · intro x hx
          rw [hrows p, List.map_map, List.mem_map] at hx
          obtain ⟨s, hs, hsx⟩ := hx
          have hsd := mem_rowsFor.1 hs
          rw [← hsx]
          show (zeroBottom b { s with redistributed_votes := s.redistributed_votes.map (fun w => w + transferTo (points_to_redistribute data b) p) }).current_votes = _
          rw [zeroBottom_cv_eq, hsd.2]
          by_cases hpb : p = b
          · rw [if_pos hpb, if_pos hpb]
          · rw [if_neg hpb, if_neg hpb]
            exact (hconst s hsd.1 r hrd.1 (hsd.2.trans hrd.2.symm)).1
        · rw [Ne, List.map_eq_nil_iff]
          exact hne'
      show (listMaxQ ((rowsFor data' p).map Row.current_votes)).getD 0 = _
      rw [hmax]
      rfl
    have hrv' : (mkEntry data' p).redistributed_votes =
        some (v + transferTo (points_to_redistribute data b) p) := by
      apply nanMax_const
      · intro x hx
        rw [hrows p, List.map_map, List.mem_map] at hx
        obtain ⟨s, hs, hsx⟩ := hx
        have hsd := mem_rowsFor.1 hs
        have hsrv : s.redistributed_votes = some v := by
          rw [(hconst s hsd.1 r hrd.1 (hsd.2.trans hrd.2.symm)).2, hv]
        rw [← hsx]
        show (zeroBottom b { s with redistributed_votes := s.redistributed_votes.map (fun w => w + transferTo (points_to_redistribute data b) p) }).redistributed_votes = _
        rw [zeroBottom_rv_eq, hsrv]
        rfl
      · rw [Ne, List.map_eq_nil_iff]
        exact hne'
    constructor
    · rw [hcv', hrv', hcv, hrv]
      simp only [nv, Option.getD_some]
      norm_cast
    · rw [hcv, hrv]
      simp only [nv, Option.getD_some]
      norm_cast
  have h1 : (partiesOf data).map (fun p =>
      ((mkEntry data' p).current_votes : WithBot ℚ) + nv (mkEntry data' p).redistributed_votes)
      = (partiesOf data).map (fun p =>
      (((if p = b then 0 else (mkEntry data p).current_votes) +
        ((mkEntry data p).redistributed_votes.getD 0 +
          transferTo (points_to_redistribute data b) p) : ℚ) : WithBot ℚ)) :=
    List.map_congr_left (fun p hp => (key p hp).1)
  have h2 : (partiesOf data).map (fun p =>
      ((mkEntry data p).current_votes : WithBot ℚ) + nv (mkEntry data p).redistributed_votes)
      = (partiesOf data).map (fun p =>
      (((mkEntry data p).current_votes +
        (mkEntry data p).redistributed_votes.getD 0 : ℚ) : WithBot ℚ)) :=
    List.map_congr_left (fun p hp => (key p hp).2)
  rw [h1, h2, sum_map_coe_q, sum_map_coe_q, WithBot.coe_inj]
  rw [List.sum_map_add, List.sum_map_add, List.sum_map_add]
  have hT : ((partiesOf data).map
      (fun p => transferTo (points_to_redistribute data b) p)).sum =
      (mkEntry data b).current_votes := by
    have hmemiff : ∀ s, s ∈ partiesOf data ↔ s ∈ (points_to_redistribute data b).map Prod.fst := by
      intro s
      constructor
      · intro hs
        obtain ⟨r, hr, hbp⟩ := mem_partiesOf.1 hs
        obtain ⟨q, hq, hq1⟩ := hcov r hr
        rw [← hbp, ← hq1]
        exact List.mem_map_of_mem Prod.fst hq
      · intro hs
        rw [List.mem_map] at hs
        obtain ⟨q, hq, hq1⟩ := hs
        obtain ⟨r, hr, hbp⟩ := hdest q hq
        exact mem_partiesOf.2 ⟨r, hr, hbp.trans hq1⟩
    rw [sum_transferTo (points_to_redistribute data b) (partiesOf data) hnd
      (partiesOf_nodup data) hmemiff]
    unfold points_to_redistribute
    rw [List.map_map]
    have hcols : (rowsFor data b).map
        (Prod.snd ∘ fun r => (r.next_best_party, r.initial_votes * r.redistribution_share)) =
        (rowsFor data b).map (fun r => (mkEntry data b).current_votes * r.redistribution_share) := by
      apply List.map_congr_left
      intro s hs
      have hsd := mem_rowsFor.1 hs
      show s.initial_votes * s.redistribution_share = _
      rw [hiv s hsd.1 hsd.2, (mkEntry_vals_of_const hconst hs).1]
    rw [hcols, List.sum_map_mul_left, hshares, mul_one]
  rw [hT]
  have hI := sum_map_ite_zero (partiesOf data) b
    (fun p => (mkEntry data p).current_votes) (partiesOf_nodup data) (bottom_mem_partiesOf hb)
  linarith

end RankBased
namespace RankBased

/-- The table `w4tbl` after its single redistribution round: B is zeroed,
A and B each receive the 20-vote transfer named for them. -/
def w4after : Table :=
  [mkRow "A" "B" 0 60 60 (some 20),
   mkRow "B" "A" (1/2) 0 40 (some 25),
   mkRow "B" "B" (1/2) 0 40 (some 25)]

/-- C4 witness: on `w4tbl` (destinations A and B cover every party, shares
sum to one, no NaN) the per-party vote sum is conserved by the round. -/
theorem claim4_witness : total_votes_sum w4after = total_votes_sum w4tbl :=
  claim4_amended w4tbl w4after "B"
    (by with_unfolding_all rfl) (by with_unfolding_all rfl)
    (by decide) (by decide) (by decide) (by decide)
    (by with_unfolding_all rfl) (by decide) (by decide)

end RankBased
